import Mathlib

/-!
Verification development for the vid2txt repository (Rust).

This file gives a shallow embedding, in Lean 4, of the decision procedures of
the repository: the locator classifier and extension inference of
`src/app.rs`, the model-catalog cache and filter/sort policy of `src/hf.rs`
(with `CACHE_TTL` from `src/constants.rs`), and the model resolver of
`src/models.rs`.  Filesystem, clock and network effects are modelled by
explicit environment records; strings are modelled by Lean `String` with all
computation performed on the underlying `List Char` (Rust byte-wise string
order coincides with code-point lexicographic order on valid UTF-8, which is
what the char-list order below implements).  Rust `Duration` values are
modelled in whole seconds.

Theorems about the claims follow the definitions.
-/

namespace Vid2Txt

/-! ## Basic character and string utilities -/

/-- Whitespace recognized by the model of Rust `str::trim` (the ASCII subset
of `char::is_whitespace`; the inputs of interest contain no exotic Unicode
whitespace). -/
def isWs (c : Char) : Bool :=
  c = ' ' || c = '\t' || c = '\n' || c = '\r'

/-- Model of Rust `str::trim`: drop whitespace from both ends. -/
def trimChars (cs : List Char) : List Char :=
  ((cs.dropWhile isWs).reverse.dropWhile isWs).reverse

/-- Strict lexicographic order on char lists by code point; this is exactly
the order Rust uses to compare `String`s (byte-wise UTF-8 order coincides
with code-point order). -/
def lexLtB : List Char → List Char → Bool
  | [], [] => false
  | [], _ :: _ => true
  | _ :: _, [] => false
  | a :: as, b :: bs => decide (a.toNat < b.toNat) || (a == b && lexLtB as bs)

/-- Model of Rust `str::contains` for a literal needle: some suffix of the
haystack has the needle as a prefix. -/
def containsSub (needle : List Char) : List Char → Bool
  | [] => needle.isEmpty
  | c :: t => needle.isPrefixOf (c :: t) || containsSub needle t

/-- ASCII lowercasing of a string, character by character.  `Char.toLower`
maps exactly `A`-`Z` to `a`-`z`, so this models Rust
`str::to_ascii_lowercase`, and also `str::to_lowercase` on the ASCII
filenames and aliases this repository deals in. -/
def lowerStr (s : String) : String :=
  ⟨s.data.map Char.toLower⟩

/-- ASCII letter test, the character class `[A-Za-z]`. -/
def isAsciiLetter (c : Char) : Bool :=
  ('a' ≤ c && c ≤ 'z') || ('A' ≤ c && c ≤ 'Z')

/-- The character class `[A-Za-z0-9-]` of a domain label in the bare-domain
regex of `src/app.rs`. -/
def isLabelChar (c : Char) : Bool :=
  isAsciiLetter c || ('0' ≤ c && c ≤ '9') || c = '-'

/-- Whitespace class `\s` of the Rust regex crate (ASCII part; the Unicode
extras never occur in the inputs of interest). -/
def isRegexWs (c : Char) : Bool :=
  c = ' ' || c = '\t' || c = '\n' || c = '\r' || c = '\x0b' || c = '\x0c'

/-! ## Locator classifier, from `is_probable_url` in `src/app.rs` -/

/-- Matcher for the tail `[A-Za-z]{2,63}(?:[/:?#][^\s]*)?$` of the
bare-domain regex in `src/app.rs` line 64: a TLD of 2 to 63 ASCII letters,
then either the end of the string or one of `/:?#` followed by
non-whitespace characters to the end.  Because the optional group cannot
start with a letter, the greedy letter run is the only possible TLD. -/
def tldRest (cs : List Char) : Bool :=
  let run := cs.takeWhile isAsciiLetter
  let rest := cs.drop run.length
  decide (2 ≤ run.length) && decide (run.length ≤ 63) &&
    (match rest with
     | [] => true
     | c :: tail => (c = '/' || c = ':' || c = '?' || c = '#') && tail.all (fun d => !isRegexWs d))

mutual

/-- Matcher for `(?:[A-Za-z0-9-]+\.)+` followed by `tldRest`: at least one
dot-terminated label, then the TLD part.  `bareGroups` expects the first
character of a label. -/
def bareGroups : List Char → Bool
  | [] => false
  | c :: cs => isLabelChar c && afterLabel cs

/-- Continuation of `bareGroups` after at least one label character: more
label characters, then a literal `.`, then either the TLD tail or further
label groups. -/
def afterLabel : List Char → Bool
  | [] => false
  | c :: cs =>
      if isLabelChar c then afterLabel cs
      else c = '.' && (tldRest cs || bareGroups cs)

end

/-- Matcher for the anchored bare-domain regex
`^(?:[A-Za-z0-9-]+\.)+[A-Za-z]{2,63}(?:[/:?#][^\s]*)?$` of `src/app.rs`
line 64. -/
def bareDomainL (cs : List Char) : Bool :=
  bareGroups cs

/-- The `starts_with_dot` test of `src/app.rs` lines 25-28. -/
def startsDotL (cs : List Char) : Bool :=
  ".\\".data.isPrefixOf cs || "./".data.isPrefixOf cs ||
    "..\\".data.isPrefixOf cs || "../".data.isPrefixOf cs

/-- The `looks_like_posix_abs` test of `src/app.rs` line 29. -/
def posixAbsL (cs : List Char) : Bool :=
  "/".data.isPrefixOf cs || "~/".data.isPrefixOf cs

/-- The Windows-drive test of `src/app.rs` lines 34-42: at least three
bytes, the second `:`, the third `\` or `/`, the first an ASCII letter.  On
a char list the byte conditions coincide with the char conditions, because
the second and third bytes can only equal ASCII `:`/`\`/`/` when the first
characters are themselves single-byte. -/
def driveLetterL : List Char → Bool
  | c0 :: c1 :: c2 :: _ => c1 = ':' && (c2 = '\\' || c2 = '/') && isAsciiLetter c0
  | _ => false

/-- The UNC test `s.starts_with("\\\\")` of `src/app.rs` line 44. -/
def uncL (cs : List Char) : Bool :=
  "\\\\".data.isPrefixOf cs

/-- The `file://` test of `src/app.rs` line 48:
`s.to_ascii_lowercase().starts_with("file://")`. -/
def fileSchemeL (cs : List Char) : Bool :=
  "file://".data.isPrefixOf (cs.map Char.toLower)

/-- Matcher for the known-scheme regex `(?i)^(?:https?|ftp)://` of
`src/app.rs` line 53 (ASCII case folding, which is all that can match these
ASCII letters up to exotic Unicode case folds never present here). -/
def knownSchemeL (cs : List Char) : Bool :=
  let l := cs.map Char.toLower
  "http://".data.isPrefixOf l || "https://".data.isPrefixOf l || "ftp://".data.isPrefixOf l

/-- Protocol-relative test `s.starts_with("//")` of `src/app.rs` line 57. -/
def protoRelL (cs : List Char) : Bool :=
  "//".data.isPrefixOf cs

/-- Body of `is_probable_url` from `src/app.rs` lines 18-66 after trimming,
with the branches in source order. -/
def isProbableUrlChars (cs : List Char) : Bool :=
  if cs.isEmpty then false
  else if startsDotL cs || posixAbsL cs then false
  else if driveLetterL cs then false
  else if uncL cs then false
  else if fileSchemeL cs then false
  else if knownSchemeL cs then true
  else if protoRelL cs then true
  else bareDomainL cs

/-- The locator classifier `is_probable_url` of `src/app.rs`: `true` means
RemoteLocator, `false` means LocalPath. -/
def is_probable_url (s : String) : Bool :=
  isProbableUrlChars (trimChars s.data)

/-! ## Path operations, modelling Rust `std::path` on Unix -/

/-- Split a char list on `/` separators (the groups between slashes,
including empty groups). -/
def splitSlash : List Char → List (List Char)
  | [] => [[]]
  | c :: cs =>
      if c = '/' then [] :: splitSlash cs
      else
        match splitSlash cs with
        | [] => [[c]]
        | g :: gs => (c :: g) :: gs

/-- Normal components of a Unix path: the nonempty groups between slashes
with `.` groups dropped (Rust `Path::components` normalization; `..` is kept
as a component). -/
def pathComps (s : String) : List (List Char) :=
  (splitSlash s.data).filter (fun g => !(g.isEmpty || g = ['.']))

/-- Model of Rust `Path::file_name`: the last component, unless it is
`..` or there is none. -/
def fileName (s : String) : Option String :=
  match (pathComps s).getLast? with
  | none => none
  | some g => if g = "..".data then none else some ⟨g⟩

/-- Join components back with `/` separators. -/
def joinComps : List (List Char) → List Char
  | [] => []
  | [g] => g
  | g :: gs => g ++ '/' :: joinComps gs

/-- Model of Rust `Path::parent`: the path without its final component;
`none` for the root or the empty path. -/
def parentString (s : String) : Option String :=
  match pathComps s with
  | [] => none
  | comps =>
      some ⟨(if s.data.head? = some '/' then ['/'] else []) ++ joinComps comps.dropLast⟩

/-- Model of Rust `Path::join` for the joins performed by this repository
(an absolute right operand replaces the left one). -/
def joinPath (dir name : String) : String :=
  if name.data.head? = some '/' then name
  else if dir.data.isEmpty then name
  else if dir.data.getLast? = some '/' then ⟨dir.data ++ name.data⟩
  else ⟨dir.data ++ '/' :: name.data⟩

/-- Model of Rust `Path::extension` applied to a bare file name: `some`
exactly when a `.` occurs after the first character, and then the portion
after the last `.`.  (`.bashrc` has no extension; `foo.` has extension
`""`; `.a.b` has extension `b`.) -/
def afterLastDot : List Char → Option (List Char)
  | [] => none
  | c :: cs =>
      match afterLastDot cs with
      | some r => some r
      | none => if c = '.' then some cs else none

/-- Rust `Path::extension` of a single path segment (see `afterLastDot`):
the first character does not count as an extension separator. -/
def rustExtension (name : String) : Option String :=
  match name.data with
  | [] => none
  | _ :: cs => (afterLastDot cs).map (fun l => ⟨l⟩)

/-- Rust `Path::extension` of a whole path: the extension of its final
segment. -/
def pathExtensionOf (p : String) : Option String :=
  (fileName p).bind rustExtension

/-! ## Extension inference, from `try_infer_with_exts` in `src/app.rs` -/

/-- Filesystem-and-cwd environment for the path-probing code: the set of
existing paths (exact string keys; canonicalization is not modelled) and the
current directory used when a candidate has no parent. -/
structure FsEnv where
  files : List String
  cwd : String
deriving DecidableEq, Repr

/-- Existence test against the environment, modelling `Path::exists`. -/
def pathExists (env : FsEnv) (p : String) : Bool :=
  env.files.contains p

/-- The fixed extension probe order of `src/app.rs` lines 88-90. -/
def mediaExts : List String :=
  ["mp4", "mkv", "webm", "mov", "m4a", "mp3", "wav", "flac", "avi", "m4v", "aac", "opus"]

/-- The probe path `parent.join(format!("{stem}.{ext}"))` built by
`try_infer_with_exts` for a candidate and one extension. -/
def probePath (env : FsEnv) (candidate stem ext : String) : String :=
  joinPath ((parentString candidate).getD env.cwd) ⟨stem.data ++ '.' :: ext.data⟩

/-- Embedding of `try_infer_with_exts` from `src/app.rs` lines 70-98: return
an existing candidate unchanged; otherwise compute the parent (falling back
to the current directory), require a file name, refuse names that already
have an extension, and probe the media extensions in order. -/
def try_infer_with_exts (env : FsEnv) (candidate : String) : Option String :=
  if pathExists env candidate then some candidate
  else
    let parent := (parentString candidate).getD env.cwd
    match fileName candidate with
    | none => none
    | some stem =>
        if (rustExtension stem).isSome || (pathExtensionOf candidate).isSome then none
        else
          mediaExts.findSome? (fun ext =>
            let p := joinPath parent ⟨stem.data ++ '.' :: ext.data⟩
            if pathExists env p then some p else none)

/-! ## Model catalog, from `src/hf.rs` and `src/constants.rs` -/

/-- One entry of the remote catalog (`HfFile` in `src/hf.rs`). -/
structure HfFile where
  rfilename : String
  size : Option Nat
deriving DecidableEq, Repr

/-- The parsed catalog response (`HfModel` in `src/hf.rs`). -/
structure HfModel where
  siblings : List HfFile
deriving DecidableEq, Repr

/-- Matcher for the tail `.*\.(bin|gguf)$` of the model-name regex
`^ggml-.*\.(bin|gguf)$` of `src/hf.rs` line 56: either a literal `.`
followed by exactly `bin` or `gguf` to the end, or consume one non-newline
character (regex `.` does not match a newline) and continue. -/
def modelTail : List Char → Bool
  | [] => false
  | c :: cs =>
      (c = '.' && (cs = "bin".data || cs = "gguf".data)) || (c ≠ '\n' && modelTail cs)

/-- Matcher for the anchored model-name regex `^ggml-.*\.(bin|gguf)$` of
`src/hf.rs` line 56. -/
def modelNameMatches (s : String) : Bool :=
  "ggml-".data.isPrefixOf s.data && modelTail (s.data.drop 5)

/-- Embedding of `is_quantized_name` from `src/hf.rs` lines 79-82. -/
def is_quantized_name (name : String) : Bool :=
  containsSub "-q".data name.data || containsSub ".q".data name.data ||
    containsSub "-q5".data name.data || containsSub "-q8".data name.data

/-- The comparator passed to `sort_by` in `filter_and_sort_files`
(`src/hf.rs` lines 64-74): compare the preference scores, then the
lowercased names. -/
def hfCmp (prefer_quantized : Bool) (a b : HfFile) : Ordering :=
  let an := lowerStr a.rfilename
  let bn := lowerStr b.rfilename
  let aq := is_quantized_name an
  let bq := is_quantized_name bn
  let ascore : Nat := (if prefer_quantized then !aq else aq).toNat
  let bscore : Nat := (if prefer_quantized then !bq else bq).toNat
  (compare ascore bscore).then
    (if lexLtB an.data bn.data then Ordering.lt
     else if lexLtB bn.data an.data then Ordering.gt
     else Ordering.eq)

/-- The non-strict relation induced by the comparator; Rust's stable
`sort_by` is modelled by Mathlib's stable `List.insertionSort` over it
(both produce the unique stable reordering that is sorted for this total
preorder). -/
def hfLe (prefer_quantized : Bool) (a b : HfFile) : Prop :=
  hfCmp prefer_quantized a b ≠ Ordering.gt

instance (prefer_quantized : Bool) : DecidableRel (hfLe prefer_quantized) :=
  fun a b => by unfold hfLe; infer_instance

/-- Embedding of `filter_and_sort_files` from `src/hf.rs` lines 54-77:
keep the names matched by the regex, then stable-sort by the comparator. -/
def filter_and_sort_files (files : List HfFile) (prefer_quantized : Bool) : List HfFile :=
  List.insertionSort (hfLe prefer_quantized)
    (files.filter (fun f => modelNameMatches f.rfilename))

/-- `CACHE_TTL` of `src/constants.rs` line 7, in seconds. -/
def CACHE_TTL : Nat := 24 * 60 * 60

/-- Environment for `fetch_hf_files_cached` (`src/hf.rs` lines 27-52).
`metaModified` nests the three fallible steps on the cache file: outer
`none` when `fs::metadata` fails, middle `none` when `meta.modified()`
fails, inner `none` when `SystemTime::elapsed` fails, else the age of the
file in seconds.  `cacheRead` is `none` when `fs::read` fails and
`some none` when the JSON does not parse.  `fetchResp` merges the three
propagated network steps (`reqwest::blocking::get`, `error_for_status`,
`.json()`).  `mkdirResult` models `fs::create_dir_all` on the parent and
`writeResult` models `serde_json::to_vec` plus `fs::write`. -/
structure HfEnv where
  metaModified : Option (Option (Option Nat))
  cacheRead : Option (Option HfModel)
  fetchResp : Except String HfModel
  mkdirResult : Except String Unit
  writeResult : Except String Unit

/-- The cache-serving attempt of `fetch_hf_files_cached` (`src/hf.rs`
lines 29-41): with no forced refresh, a readable modification time whose
age (defaulting to `CACHE_TTL * 2` when `elapsed` fails) is strictly below
`CACHE_TTL`, and readable, parsable bytes, serve the filtered and sorted
cache content. -/
def serveFromCache (env : HfEnv) (refresh prefer_quantized : Bool) : Option (List HfFile) :=
  if refresh then none
  else
    match env.metaModified with
    | some (some elapsedOpt) =>
        if elapsedOpt.getD (CACHE_TTL * 2) < CACHE_TTL then
          match env.cacheRead with
          | some (some model) => some (filter_and_sort_files model.siblings prefer_quantized)
          | _ => none
        else none
    | _ => none

/-- The network path of `fetch_hf_files_cached` (`src/hf.rs` lines 43-51):
every step is chained with `?`, so the fetch, the parent-directory creation
and the cache write each propagate their failure. -/
def networkFetch (env : HfEnv) (prefer_quantized : Bool) : Except String (List HfFile) :=
  match env.fetchResp with
  | Except.error e => Except.error e
  | Except.ok model =>
      match env.mkdirResult with
      | Except.error e => Except.error e
      | Except.ok _ =>
          match env.writeResult with
          | Except.error e => Except.error e
          | Except.ok _ => Except.ok (filter_and_sort_files model.siblings prefer_quantized)

/-- Embedding of `fetch_hf_files_cached` from `src/hf.rs` lines 27-52.  The
second component records whether the network was consulted. -/
def fetch_hf_files_cached (env : HfEnv) (refresh prefer_quantized : Bool) :
    Except String (List HfFile) × Bool :=
  match serveFromCache env refresh prefer_quantized with
  | some files => (Except.ok files, false)
  | none => (networkFetch env prefer_quantized, true)

/-! ## Specification-side definitions for the filter/sort policy

These definitions follow the wording of the specification, to be compared
with the source-derived `filter_and_sort_files` above. -/

/-- The claimed acceptance pattern, read literally: `ggml-<anything>.bin` or
`ggml-<anything>.gguf` with `<anything>` entirely unconstrained. -/
def claimedModelPattern (s : String) : Bool :=
  "ggml-".data.isPrefixOf s.data &&
    (".bin".data.isSuffixOf s.data || ".gguf".data.isSuffixOf s.data)

/-- The amended acceptance pattern: `ggml-<anything>.bin` or
`ggml-<anything>.gguf` where `<anything>` contains no newline (the regex `.`
does not match a newline). -/
def amendedModelPattern (s : String) : Bool :=
  "ggml-".data.isPrefixOf s.data &&
    (let t := s.data.drop 5
     (".bin".data.isSuffixOf t && !(t.take (t.length - 4)).contains '\n') ||
       (".gguf".data.isSuffixOf t && !(t.take (t.length - 5)).contains '\n'))

/-- The two-level sort key of the specification: does the entry's
quantization status match the caller's preference (matching entries first),
then the lowercased name. -/
def specKey (prefer_quantized : Bool) (f : HfFile) : Nat × List Char :=
  let name := lowerStr f.rfilename
  ((if is_quantized_name name = prefer_quantized then 0 else 1), name.data)

/-- Non-strict lexicographic comparison of specification keys. -/
def specKeyLeB (p q : Nat × List Char) : Bool :=
  decide (p.1 < q.1) || (decide (p.1 = q.1) && (lexLtB p.2 q.2 || p.2 == q.2))

/-- The specification's sort order on catalog entries. -/
def specLe (prefer_quantized : Bool) (a b : HfFile) : Prop :=
  specKeyLeB (specKey prefer_quantized a) (specKey prefer_quantized b) = true

instance (prefer_quantized : Bool) : DecidableRel (specLe prefer_quantized) :=
  fun a b => by unfold specLe; infer_instance

/-- The filter/sort policy as the specification words it (with the amended
pattern): keep the entries the pattern accepts, stable-sort by the two-level
key. -/
def specFilterSort (files : List HfFile) (prefer_quantized : Bool) : List HfFile :=
  List.insertionSort (specLe prefer_quantized)
    (files.filter (fun f => amendedModelPattern f.rfilename))

/-! ## Model resolver, from `src/models.rs` -/

instance {ε α : Type} [DecidableEq ε] [DecidableEq α] : DecidableEq (Except ε α) :=
  fun x y =>
    match x, y with
    | Except.ok a, Except.ok b =>
        if h : a = b then Decidable.isTrue (by rw [h])
        else Decidable.isFalse (fun he => h (Except.ok.injEq a b ▸ he))
    | Except.ok _, Except.error _ => Decidable.isFalse (fun he => Except.noConfusion he)
    | Except.error _, Except.ok _ => Decidable.isFalse (fun he => Except.noConfusion he)
    | Except.error e, Except.error e' =>
        if h : e = e' then Decidable.isTrue (by rw [h])
        else Decidable.isFalse (fun he => h (Except.error.injEq e e' ▸ he))

/-- Errors of the resolver: `anyhow` messages distinguished by their source
site (`ModelNotFound` from `src/models.rs` lines 88-93, `DownloadError` from
the download steps). -/
inductive RErr where
  | notFound
  | downloadError
deriving DecidableEq, Repr

/-- Result of a resolver call: the outcome, the filesystem after the call
(existing paths), and whether a network download was attempted. -/
structure ResolveOut where
  result : Except RErr String
  fs : List String
  downloaded : Bool
deriving DecidableEq, Repr

/-- The sort key of the alias search (`src/models.rs` lines 80-85): the
preference penalty (`prefer_quantized ^ is_q` as `0`/`1`) and the lowercased
name. -/
def resolveKey (prefer_quantized : Bool) (f : HfFile) : Nat × String :=
  let name := lowerStr f.rfilename
  ((if xor prefer_quantized (is_quantized_name name) then 1 else 0), name)

/-- Strict lexicographic comparison of resolver keys, as Rust compares
`(u8, String)`. -/
def keyLt (p q : Nat × String) : Bool :=
  decide (p.1 < q.1) || (decide (p.1 = q.1) && lexLtB p.2.data q.2.data)

/-- Rust `Iterator::min_by_key` on a nonempty iterator: fold keeping the
current minimum, replacing it only on a strictly smaller key, so the first
minimum wins. -/
def minByKeyAux (key : HfFile → Nat × String) (cur : HfFile) : List HfFile → HfFile
  | [] => cur
  | x :: xs => minByKeyAux key (if keyLt (key x) (key cur) then x else cur) xs

/-- Rust `Iterator::min_by_key`: `none` on the empty iterator. -/
def minByKey (key : HfFile → Nat × String) : List HfFile → Option HfFile
  | [] => none
  | x :: xs => some (minByKeyAux key x xs)

/-- The alias candidates (`src/models.rs` lines 77-79): catalog entries
whose lowercased name contains the lowercased user input. -/
def aliasMatches (files : List HfFile) (user_input : String) : List HfFile :=
  files.filter (fun f => containsSub (lowerStr user_input).data (lowerStr f.rfilename).data)

/-- The alias search of `src/models.rs` lines 74-86: the first minimum of
the candidates under `resolveKey`. -/
def bestMatch (files : List HfFile) (prefer_quantized : Bool) (user_input : String) :
    Option String :=
  (minByKey (resolveKey prefer_quantized) (aliasMatches files user_input)).map
    (fun f => f.rfilename)

/-- Embedding of `download_model_if_missing` from `src/models.rs` lines
98-143: return an existing destination without touching the network,
otherwise attempt the download (`downloadOk` tells whether the streaming
transfer succeeds; on success the destination is created). -/
def download_model_if_missing (env : List String) (downloadOk : Bool)
    (filename models_dir : String) : ResolveOut :=
  let dest := joinPath models_dir filename
  if env.contains dest then ⟨Except.ok dest, env, false⟩
  else if downloadOk then ⟨Except.ok dest, dest :: env, true⟩
  else ⟨Except.error RErr.downloadError, env, true⟩

/-- Embedding of `resolve_or_download_model` from `src/models.rs` lines
54-96: an existing path wins, then an existing file under the model
directory, then the alias search followed by the download step. -/
def resolve_or_download_model (env : List String) (downloadOk : Bool) (user_input : String)
    (models_dir : String) (files : List HfFile) (prefer_quantized : Bool) : ResolveOut :=
  if env.contains user_input then ⟨Except.ok user_input, env, false⟩
  else if env.contains (joinPath models_dir user_input) then
    ⟨Except.ok (joinPath models_dir user_input), env, false⟩
  else
    match bestMatch files prefer_quantized user_input with
    | none => ⟨Except.error RErr.notFound, env, false⟩
    | some filename => download_model_if_missing env downloadOk filename models_dir

/-! ## Concrete environments and catalogs used by witnesses and counterexamples -/

/-- Environment in which the network fetch succeeds but creating the cache
file's parent directory fails. -/
def persistFailEnv : HfEnv :=
  ⟨none, none, Except.ok ⟨[⟨"ggml-base.bin", none⟩]⟩, Except.error "mkdir failed", Except.ok ()⟩

/-- Environment with a readable, parsable cache of the given age in seconds
and an unreachable network. -/
def cacheEnvAt (age : Nat) : HfEnv :=
  ⟨some (some (some age)), some (some ⟨[⟨"ggml-tiny.bin", some 77⟩]⟩),
    Except.error "network unreachable", Except.ok (), Except.ok ()⟩

/-- Environment whose cache file has a modification time in the future:
`SystemTime::elapsed` fails. -/
def futureEnv : HfEnv :=
  ⟨some (some none), some (some ⟨[]⟩), Except.ok ⟨[⟨"ggml-tiny.bin", none⟩]⟩,
    Except.ok (), Except.ok ()⟩

/-- The two-entry catalog of the resolver examples. -/
def resolverDemoCatalog : List HfFile :=
  [⟨"ggml-large-v3.bin", none⟩, ⟨"ggml-large-v3-q5.bin", none⟩]

/-- Non-strict lexicographic order on resolver keys, as the specification
words the selection rule (data-level comparison of the lowercased names). -/
def keyLeP (p q : Nat × String) : Prop :=
  p.1 < q.1 ∨ (p.1 = q.1 ∧ (lexLtB p.2.data q.2.data = true ∨ p.2.data = q.2.data))

/-! # Theorems -/

/-! ## Order lemmas for the char-list lexicographic comparison -/

theorem lexLtB_irrefl (l : List Char) : lexLtB l l = false := by
  induction l with
  | nil => rfl
  | cons c cs ih => simp [lexLtB, ih]

theorem charEq_of_toNat_eq {a b : Char} (h : a.toNat = b.toNat) : a = b :=
  Char.ext (UInt32.ext h)

theorem lexLtB_eq_of_not {a b : List Char} (hab : lexLtB a b = false)
    (hba : lexLtB b a = false) : a = b := by
  induction a generalizing b with
  | nil =>
    cases b with
    | nil => rfl
    | cons y ys => simp [lexLtB] at hab
  | cons x xs ih =>
    cases b with
    | nil => simp [lexLtB] at hba
    | cons y ys =>
      simp only [lexLtB, Bool.or_eq_false_iff, Bool.and_eq_false_iff,
        decide_eq_false_iff_not] at hab hba
      have hx : x = y := charEq_of_toNat_eq (Nat.le_antisymm
        (Nat.not_lt.mp hba.1) (Nat.not_lt.mp hab.1))
      subst hx
      rcases hab.2 with h | h
      · simp at h
      · rcases hba.2 with h' | h'
        · simp at h'
        · rw [ih h h']

theorem lexLtB_trans {a b c : List Char} (h1 : lexLtB a b = true)
    (h2 : lexLtB b c = true) : lexLtB a c = true := by
  induction a generalizing b c with
  | nil =>
    cases c with
    | nil =>
      cases b with
      | nil => simp [lexLtB] at h1
      | cons y ys => simp [lexLtB] at h2
    | cons z zs => simp [lexLtB]
  | cons x xs ih =>
    cases b with
    | nil => simp [lexLtB] at h1
    | cons y ys =>
      cases c with
      | nil => simp [lexLtB] at h2
      | cons z zs =>
        simp only [lexLtB, Bool.or_eq_true, Bool.and_eq_true, decide_eq_true_eq,
          beq_iff_eq] at h1 h2 ⊢
        rcases h1 with h1 | ⟨hxy, h1⟩
        · rcases h2 with h2 | ⟨hyz, h2⟩
          · exact Or.inl (Nat.lt_trans h1 h2)
          · subst hyz; exact Or.inl h1
        · subst hxy
          rcases h2 with h2 | ⟨hyz, h2⟩
          · exact Or.inl h2
          · subst hyz; exact Or.inr ⟨rfl, ih h1 h2⟩

theorem lexLtB_asymm {a b : List Char} (h : lexLtB a b = true) : lexLtB b a = false := by
  by_contra hc
  have hba : lexLtB b a = true := by
    revert hc; cases lexLtB b a <;> simp
  have := lexLtB_trans h hba
  simp [lexLtB_irrefl] at this

theorem lexLtB_total {a b : List Char} (hab : lexLtB a b = false) :
    lexLtB b a = true ∨ a = b := by
  by_cases h : lexLtB b a = true
  · exact Or.inl h
  · exact Or.inr (lexLtB_eq_of_not hab (Bool.eq_false_iff.mpr h))

/-! ## C1: locator classification of the six example inputs (code bug on
`"file.txt"`) -/

/-- C1: the classifier sends `"report.v1"` and `"D3.3"` to LocalPath and the
three domain-like inputs to RemoteLocator, as claimed; but `"file.txt"` is
classified RemoteLocator, because the letters-only suffix `txt` satisfies
the bare-domain regex's TLD class, contradicting the claim and the source
comment that file names with dots are non-matches. -/
theorem url_classifier_examples :
    is_probable_url "report.v1" = false ∧
    is_probable_url "D3.3" = false ∧
    is_probable_url "file.txt" = true ∧
    is_probable_url "example.com" = true ∧
    is_probable_url "www.example.co.uk/path?x=1" = true ∧
    is_probable_url "youtu.be/xyz" = true := by
  decide

/-! ## C3: every recognized local-path prefix forces LocalPath -/

theorem localChecks_classify_false (cs : List Char)
    (h : (startsDotL cs || posixAbsL cs || driveLetterL cs || uncL cs || fileSchemeL cs) = true) :
    isProbableUrlChars cs = false := by
  unfold isProbableUrlChars
  by_cases he : cs.isEmpty = true
  · simp [he]
  · simp only [Bool.or_eq_true] at h
    rcases h with (((h | h) | h) | h) | h <;> simp [h, he]

/-- C3: an input whose trimmed form starts with `./`, `../`, `.\`, `..\`,
`/`, `~/`, a drive-letter pattern, the UNC marker `\\`, or a
case-insensitive `file://` is classified LocalPath, whatever follows: the
local-path branches of `is_probable_url` precede every remote branch. -/
theorem local_prefix_classified_local (s : String)
    (h : "./".data.isPrefixOf (trimChars s.data) = true ∨
      "../".data.isPrefixOf (trimChars s.data) = true ∨
      ".\\".data.isPrefixOf (trimChars s.data) = true ∨
      "..\\".data.isPrefixOf (trimChars s.data) = true ∨
      "/".data.isPrefixOf (trimChars s.data) = true ∨
      "~/".data.isPrefixOf (trimChars s.data) = true ∨
      driveLetterL (trimChars s.data) = true ∨
      uncL (trimChars s.data) = true ∨
      fileSchemeL (trimChars s.data) = true) :
    is_probable_url s = false := by
  unfold is_probable_url
  apply localChecks_classify_false
  rcases h with h | h | h | h | h | h | h | h | h <;>
    simp [startsDotL, posixAbsL, h]

/-- C3 witness: `"./evil.com"` starts with `./` after trimming and is
classified LocalPath although it embeds a domain-like substring. -/
theorem local_prefix_classified_local_witness :
    "./".data.isPrefixOf (trimChars "./evil.com".data) = true ∧
    is_probable_url "./evil.com" = false :=
  ⟨by decide, local_prefix_classified_local "./evil.com" (Or.inl (by decide))⟩

/-! ## C2: a persist failure does fail the fetch (claim corrected) -/

/-- C2 counterexample: in `persistFailEnv` the network fetch succeeds, yet
`fetch_hf_files_cached` returns the persist error instead of the catalog:
the `?` operators on `create_dir_all` and `fs::write` propagate. -/
theorem fetch_persist_failure_cex :
    persistFailEnv.fetchResp = Except.ok ⟨[⟨"ggml-base.bin", none⟩]⟩ ∧
    (fetch_hf_files_cached persistFailEnv true false).1 = Except.error "mkdir failed" :=
  ⟨rfl, rfl⟩

/-- C2 amended: when the cache is not served, the fetch succeeds, and the
persist step fails (directory creation, or write after a successful
directory creation), the whole call fails with the persist error. -/
theorem fetch_persist_failure_propagates (env : HfEnv) (refresh prefer : Bool)
    (m : HfModel) (e : String)
    (hcache : serveFromCache env refresh prefer = none)
    (hfetch : env.fetchResp = Except.ok m)
    (hpersist : env.mkdirResult = Except.error e ∨
      (env.mkdirResult = Except.ok () ∧ env.writeResult = Except.error e)) :
    fetch_hf_files_cached env refresh prefer = (Except.error e, true) := by
  rcases hpersist with h | ⟨h1, h2⟩
  · simp [fetch_hf_files_cached, networkFetch, hcache, hfetch, h]
  · simp [fetch_hf_files_cached, networkFetch, hcache, hfetch, h1, h2]

/-- C2 witness: the amended statement at `persistFailEnv`. -/
theorem fetch_persist_failure_witness :
    serveFromCache persistFailEnv true false = none ∧
    persistFailEnv.fetchResp = Except.ok ⟨[⟨"ggml-base.bin", none⟩]⟩ ∧
    fetch_hf_files_cached persistFailEnv true false = (Except.error "mkdir failed", true) :=
  ⟨rfl, rfl,
    fetch_persist_failure_propagates persistFailEnv true false ⟨[⟨"ggml-base.bin", none⟩]⟩
      "mkdir failed" rfl rfl (Or.inl rfl)⟩

/-! ## C4: cache freshness policy -/

/-- C4: with no forced refresh, a cache whose age is strictly below
`CACHE_TTL` and which reads and parses is served with no network access;
with a forced refresh, an absent cache metadata, a stale age, or unreadable
or unparsable cache bytes, the network is consulted and a fetch failure is
returned as the failure of the whole call. -/
theorem cache_policy :
    (∀ (env : HfEnv) (prefer : Bool) (a : Nat) (m : HfModel),
      env.metaModified = some (some (some a)) → a < CACHE_TTL →
      env.cacheRead = some (some m) →
      fetch_hf_files_cached env false prefer =
        (Except.ok (filter_and_sort_files m.siblings prefer), false)) ∧
    (∀ (env : HfEnv) (refresh prefer : Bool),
      (refresh = true ∨ env.metaModified = none ∨
        (∃ a, env.metaModified = some (some (some a)) ∧ CACHE_TTL ≤ a) ∨
        env.cacheRead = none ∨ env.cacheRead = some none) →
      (fetch_hf_files_cached env refresh prefer).2 = true ∧
      ∀ e, env.fetchResp = Except.error e →
        (fetch_hf_files_cached env refresh prefer).1 = Except.error e) := by
  constructor
  · intro env prefer a m h1 h2 h3
    simp [fetch_hf_files_cached, serveFromCache, h1, h2, h3]
  · intro env refresh prefer h
    have hnone : serveFromCache env refresh prefer = none := by
      unfold serveFromCache
      rcases h with h | h | ⟨a, h, ha⟩ | h | h
      · simp [h]
      · simp [h]
      · simp [h, Nat.not_lt.mpr ha]
      · cases hm : env.metaModified with
        | none => simp [hm]
        | some mo =>
          cases mo with
          | none => simp [hm]
          | some eo => simp [hm, h]
      · cases hm : env.metaModified with
        | none => simp [hm]
        | some mo =>
          cases mo with
          | none => simp [hm]
          | some eo => simp [hm, h]
    refine ⟨by simp [fetch_hf_files_cached, hnone], ?_⟩
    intro e he
    simp [fetch_hf_files_cached, hnone, networkFetch, he]

/-- C4 witness: a cache of age 23 hours is served without network access
even though the network is unreachable, and a cache of age 25 hours
triggers a network fetch whose failure fails the call. -/
theorem cache_policy_witness :
    ((cacheEnvAt 82800).metaModified = some (some (some 82800)) ∧ 82800 < CACHE_TTL ∧
      fetch_hf_files_cached (cacheEnvAt 82800) false true =
        (Except.ok (filter_and_sort_files [⟨"ggml-tiny.bin", some 77⟩] true), false)) ∧
    ((fetch_hf_files_cached (cacheEnvAt 90000) false true).2 = true ∧
      (fetch_hf_files_cached (cacheEnvAt 90000) false true).1 =
        Except.error "network unreachable") :=
  ⟨⟨rfl, by decide,
    cache_policy.1 (cacheEnvAt 82800) true 82800 ⟨[⟨"ggml-tiny.bin", some 77⟩]⟩
      rfl (by decide) rfl⟩,
   ⟨(cache_policy.2 (cacheEnvAt 90000) false true
      (Or.inr (Or.inr (Or.inl ⟨90000, rfl, by decide⟩)))).1,
    (cache_policy.2 (cacheEnvAt 90000) false true
      (Or.inr (Or.inr (Or.inl ⟨90000, rfl, by decide⟩)))).2 "network unreachable" rfl⟩⟩

/-! ## C10: an uncomparable modification time is treated as stale -/

/-- C10: when `SystemTime::elapsed` fails, the age defaults to
`CACHE_TTL * 2`, the freshness test fails, and the call takes the network
path. -/
theorem future_mtime_treated_stale (env : HfEnv) (prefer : Bool)
    (h : env.metaModified = some (some none)) :
    (fetch_hf_files_cached env false prefer).2 = true ∧
    (fetch_hf_files_cached env false prefer).1 = networkFetch env prefer := by
  have httl : ¬ (CACHE_TTL * 2 < CACHE_TTL) := by decide
  have hnone : serveFromCache env false prefer = none := by
    simp [serveFromCache, h, httl]
  exact ⟨by simp [fetch_hf_files_cached, hnone], by simp [fetch_hf_files_cached, hnone]⟩

/-- C10 witness: the statement at `futureEnv`. -/
theorem future_mtime_witness :
    futureEnv.metaModified = some (some none) ∧
    (fetch_hf_files_cached futureEnv false false).2 = true ∧
    (fetch_hf_files_cached futureEnv false false).1 = networkFetch futureEnv false :=
  ⟨rfl, (future_mtime_treated_stale futureEnv false rfl).1,
    (future_mtime_treated_stale futureEnv false rfl).2⟩

/-! ## C9: uniqueness of names is preserved, not created (claim corrected) -/

/-- C9 counterexample: an input with two entries of the same name yields an
output with two entries of the same name; `filter_and_sort_files` never
deduplicates. -/
theorem unique_names_cex :
    ¬ (filter_and_sort_files [⟨"ggml-base.bin", none⟩, ⟨"ggml-base.bin", some 1⟩]
        false).Pairwise (fun a b => a.rfilename ≠ b.rfilename) := by
  decide

/-- C9 amended: if the input entries have pairwise-distinct names then so
does the output of `filter_and_sort_files` (filtering takes a sublist and
sorting permutes). -/
theorem unique_names_preserved (files : List HfFile) (prefer : Bool)
    (h : files.Pairwise (fun a b => a.rfilename ≠ b.rfilename)) :
    (filter_and_sort_files files prefer).Pairwise
      (fun a b => a.rfilename ≠ b.rfilename) := by
  have h1 : (files.filter (fun f => modelNameMatches f.rfilename)).Pairwise
      (fun a b => a.rfilename ≠ b.rfilename) :=
    List.Pairwise.sublist (List.filter_sublist files) h
  exact ((List.perm_insertionSort (hfLe prefer) _).pairwise_iff
    (fun hxy => Ne.symm hxy)).mpr h1

/-- C9 witness: the amended statement at a two-entry catalog. -/
theorem unique_names_witness :
    ([⟨"ggml-base.bin", none⟩, ⟨"ggml-large.gguf", none⟩] : List HfFile).Pairwise
      (fun a b => a.rfilename ≠ b.rfilename) ∧
    (filter_and_sort_files [⟨"ggml-base.bin", none⟩, ⟨"ggml-large.gguf", none⟩]
        false).Pairwise (fun a b => a.rfilename ≠ b.rfilename) :=
  ⟨by decide, unique_names_preserved _ false (by decide)⟩

/-! ## C5: full characterization of the filter/sort policy -/

theorem contains_iff_mem (l : List Char) (a : Char) : l.contains a = true ↔ a ∈ l := by
  rw [List.contains_eq_any_beq]; simp

theorem contains_eq_false_iff (l : List Char) (a : Char) :
    l.contains a = false ↔ a ∉ l := by
  rw [← Bool.not_eq_true, contains_iff_mem]

theorem modelTail_iff (cs : List Char) :
    modelTail cs = true ↔
      ∃ mid, ('\n' ∉ mid) ∧ (cs = mid ++ ".bin".data ∨ cs = mid ++ ".gguf".data) := by
  induction cs with
  | nil =>
    simp only [modelTail, Bool.false_eq_true, false_iff]
    rintro ⟨mid, -, h | h⟩ <;> simp at h
  | cons c cs ih =>
    simp only [modelTail, Bool.or_eq_true, Bool.and_eq_true, decide_eq_true_eq]
    constructor
    · rintro (⟨hc, hcs | hcs⟩ | ⟨hn, ht⟩)
      · exact ⟨[], by simp, Or.inl (by simp [hc, hcs])⟩
      · exact ⟨[], by simp, Or.inr (by simp [hc, hcs])⟩
      · obtain ⟨mid, hm, hor⟩ := ih.mp ht
        refine ⟨c :: mid, ?_, ?_⟩
        · simp only [List.mem_cons, not_or]
          exact ⟨fun he => hn he.symm, hm⟩
        · rcases hor with h | h
          · exact Or.inl (by rw [List.cons_append, h])
          · exact Or.inr (by rw [List.cons_append, h])
    · rintro ⟨mid, hm, hor⟩
      cases mid with
      | nil =>
        rcases hor with h | h
        · rw [List.nil_append] at h
          injection h with h1 h2
          exact Or.inl ⟨h1, Or.inl h2⟩
        · rw [List.nil_append] at h
          injection h with h1 h2
          exact Or.inl ⟨h1, Or.inr h2⟩
      | cons m ms =>
        simp only [List.mem_cons, not_or] at hm
        rcases hor with h | h <;>
          rw [List.cons_append] at h <;> injection h with h1 h2
        · exact Or.inr ⟨fun he => hm.1 ((h1.symm.trans he).symm),
            ih.mpr ⟨ms, hm.2, Or.inl h2⟩⟩
        · exact Or.inr ⟨fun he => hm.1 ((h1.symm.trans he).symm),
            ih.mpr ⟨ms, hm.2, Or.inr h2⟩⟩

theorem exists_mid_iff_suffix (suf t : List Char) :
    (∃ mid, '\n' ∉ mid ∧ t = mid ++ suf) ↔
      (suf.isSuffixOf t = true ∧ '\n' ∉ t.take (t.length - suf.length)) := by
  constructor
  · rintro ⟨mid, hm, rfl⟩
    refine ⟨List.isSuffixOf_iff_suffix.mpr ⟨mid, rfl⟩, ?_⟩
    rw [@List.take_left' _ mid suf ((mid ++ suf).length - suf.length) (by simp)]
    exact hm
  · rintro ⟨hsuf, htake⟩
    obtain ⟨mid, rfl⟩ := List.isSuffixOf_iff_suffix.mp hsuf
    rw [@List.take_left' _ mid suf ((mid ++ suf).length - suf.length) (by simp)] at htake
    exact ⟨mid, htake, rfl⟩

theorem modelNameMatches_eq_amended (s : String) :
    modelNameMatches s = amendedModelPattern s := by
  unfold modelNameMatches amendedModelPattern
  cases hp : "ggml-".data.isPrefixOf s.data
  · simp
  · simp only [Bool.true_and]
    rw [Bool.eq_iff_iff]
    simp only [Bool.or_eq_true, Bool.and_eq_true, Bool.not_eq_true',
      contains_eq_false_iff]
    rw [modelTail_iff]
    constructor
    · rintro ⟨mid, hm, h | h⟩
      · exact Or.inl ((exists_mid_iff_suffix ".bin".data _).mp ⟨mid, hm, h⟩)
      · exact Or.inr ((exists_mid_iff_suffix ".gguf".data _).mp ⟨mid, hm, h⟩)
    · rintro (h | h)
      · obtain ⟨mid, hm, he⟩ := (exists_mid_iff_suffix ".bin".data _).mpr h
        exact ⟨mid, hm, Or.inl he⟩
      · obtain ⟨mid, hm, he⟩ := (exists_mid_iff_suffix ".gguf".data _).mpr h
        exact ⟨mid, hm, Or.inr he⟩

theorem cmpThen_ne_gt_iff (A B : Nat) (an bn : List Char) :
    (Ordering.then (compare A B)
        (if lexLtB an bn then Ordering.lt
         else if lexLtB bn an then Ordering.gt else Ordering.eq) ≠ Ordering.gt) ↔
      (decide (A < B) || (decide (A = B) && (lexLtB an bn || an == bn))) = true := by
  rcases Nat.lt_trichotomy A B with h | h | h
  · rw [Nat.compare_eq_lt.mpr h]
    simp [Ordering.then, h]
  · rw [Nat.compare_eq_eq.mpr h]
    cases h1 : lexLtB an bn with
    | true => simp [Ordering.then, h1, h]
    | false =>
      cases h2 : lexLtB bn an with
      | true =>
        have hne : ¬ (an = bn) := fun he => by
          rw [he, lexLtB_irrefl] at h2
          exact Bool.false_ne_true h2
        simp [Ordering.then, h1, h2, h, hne]
      | false =>
        have he : an = bn := lexLtB_eq_of_not h1 h2
        simp [Ordering.then, h1, h2, h, he]
  · rw [Nat.compare_eq_gt.mpr h]
    have h1 : ¬ (A < B) := Nat.lt_asymm h
    have h2 : A ≠ B := Nat.ne_of_gt h
    simp [Ordering.then, h1, h2]

theorem hfLe_iff_specLe (prefer_quantized : Bool) (a b : HfFile) :
    hfLe prefer_quantized a b ↔ specLe prefer_quantized a b := by
  unfold hfLe hfCmp specLe specKey specKeyLeB
  have hsc : ∀ p q : Bool,
      ((if p then !q else q).toNat) = (if q = p then (0 : Nat) else 1) := by decide
  simp only [hsc]
  exact cmpThen_ne_gt_iff _ _ _ _

theorem orderedInsert_congr {r s : HfFile → HfFile → Prop}
    [DecidableRel r] [DecidableRel s] (h : ∀ a b, r a b ↔ s a b) (x : HfFile) :
    ∀ l : List HfFile, List.orderedInsert r x l = List.orderedInsert s x l := by
  intro l
  induction l with
  | nil => rfl
  | cons y ys ih =>
    simp only [List.orderedInsert]
    by_cases hr : r x y
    · rw [if_pos hr, if_pos ((h x y).mp hr)]
    · rw [if_neg hr, if_neg (fun hs => hr ((h x y).mpr hs)), ih]

theorem insertionSort_congr {r s : HfFile → HfFile → Prop}
    [DecidableRel r] [DecidableRel s] (h : ∀ a b, r a b ↔ s a b) :
    ∀ l : List HfFile, List.insertionSort r l = List.insertionSort s l := by
  intro l
  induction l with
  | nil => rfl
  | cons y ys ih =>
    simp only [List.insertionSort]
    rw [ih, orderedInsert_congr h]

theorem specLe_total (prefer_quantized : Bool) (a b : HfFile) :
    specLe prefer_quantized a b ∨ specLe prefer_quantized b a := by
  unfold specLe specKeyLeB
  set p := specKey prefer_quantized a
  set q := specKey prefer_quantized b
  rcases Nat.lt_trichotomy p.1 q.1 with h | h | h
  · exact Or.inl (by simp [h])
  · by_cases h1 : lexLtB p.2 q.2 = true
    · exact Or.inl (by simp [h, h1])
    · by_cases h2 : lexLtB q.2 p.2 = true
      · exact Or.inr (by simp [h, h2])
      · have := lexLtB_eq_of_not (Bool.eq_false_iff.mpr h1) (Bool.eq_false_iff.mpr h2)
        exact Or.inl (by simp [h, this])
  · exact Or.inr (by simp [h])

theorem specLe_trans (prefer_quantized : Bool) (a b c : HfFile)
    (h1 : specLe prefer_quantized a b) (h2 : specLe prefer_quantized b c) :
    specLe prefer_quantized a c := by
  unfold specLe specKeyLeB at h1 h2 ⊢
  set p := specKey prefer_quantized a
  set q := specKey prefer_quantized b
  set r := specKey prefer_quantized c
  simp only [Bool.or_eq_true, Bool.and_eq_true, decide_eq_true_eq, beq_iff_eq] at h1 h2 ⊢
  rcases h1 with h1 | ⟨h1e, h1l⟩
  · rcases h2 with h2 | ⟨h2e, h2l⟩
    · exact Or.inl (Nat.lt_trans h1 h2)
    · exact Or.inl (h2e ▸ h1)
  · rcases h2 with h2 | ⟨h2e, h2l⟩
    · exact Or.inl (h1e ▸ h2)
    · refine Or.inr ⟨h1e.trans h2e, ?_⟩
      rcases h1l with h1l | h1l
      · rcases h2l with h2l | h2l
        · exact Or.inl (lexLtB_trans h1l h2l)
        · exact Or.inl (h2l ▸ h1l)
      · rcases h2l with h2l | h2l
        · exact Or.inl (h1l ▸ h2l)
        · exact Or.inr (h1l.trans h2l)

instance (prefer_quantized : Bool) : IsTotal HfFile (specLe prefer_quantized) :=
  ⟨specLe_total prefer_quantized⟩

instance (prefer_quantized : Bool) : IsTrans HfFile (specLe prefer_quantized) :=
  ⟨specLe_trans prefer_quantized⟩

/-- C5 counterexample: the name `"ggml-\n.bin"` matches the claimed pattern
`ggml-<anything>.bin` read literally, yet `filter_and_sort_files` drops it,
because the regex `.` does not match a newline. -/
theorem filter_newline_cex :
    claimedModelPattern "ggml-\n.bin" = true ∧
    filter_and_sort_files [⟨"ggml-\n.bin", none⟩] false = [] := by
  decide

/-- C5 amended: for every input list, `filter_and_sort_files` equals the
specification-side `specFilterSort`: keep exactly the names of shape
`ggml-<anything>.bin` or `ggml-<anything>.gguf` with `<anything>` free of
newlines, stable-sorted by the two-level key (quantization status matching
the caller's flag first, then the lowercased name ascending); moreover the
output is a permutation of the amended-pattern filter and is pairwise
ordered by the specification order. -/
theorem filter_sort_characterization (files : List HfFile) (prefer_quantized : Bool) :
    filter_and_sort_files files prefer_quantized = specFilterSort files prefer_quantized ∧
    (filter_and_sort_files files prefer_quantized).Perm
      (files.filter (fun f => amendedModelPattern f.rfilename)) ∧
    (filter_and_sort_files files prefer_quantized).Pairwise (specLe prefer_quantized) := by
  have hfil : files.filter (fun f => modelNameMatches f.rfilename) =
      files.filter (fun f => amendedModelPattern f.rfilename) :=
    List.filter_congr (fun x _ => modelNameMatches_eq_amended x.rfilename)
  have heq : filter_and_sort_files files prefer_quantized =
      specFilterSort files prefer_quantized := by
    unfold filter_and_sort_files specFilterSort
    rw [hfil, insertionSort_congr (hfLe_iff_specLe prefer_quantized)]
  refine ⟨heq, ?_, ?_⟩
  · unfold filter_and_sort_files
    have h2 : (files.filter (fun f => modelNameMatches f.rfilename)).Perm
        (files.filter (fun f => amendedModelPattern f.rfilename)) := by rw [hfil]
    exact (List.perm_insertionSort (hfLe prefer_quantized) _).trans h2
  · rw [heq]
    unfold specFilterSort
    exact List.sorted_insertionSort (specLe prefer_quantized) _

/-! ## C6: alias resolution picks the minimum under the preference key -/

theorem keyLeP_refl (p : Nat × String) : keyLeP p p :=
  Or.inr ⟨rfl, Or.inr rfl⟩

theorem keyLt_to_leP {p q : Nat × String} (h : keyLt p q = true) : keyLeP p q := by
  unfold keyLt at h
  simp only [Bool.or_eq_true, Bool.and_eq_true, decide_eq_true_eq] at h
  rcases h with h | ⟨h1, h2⟩
  · exact Or.inl h
  · exact Or.inr ⟨h1, Or.inl h2⟩

theorem keyLt_false_to_leP {p q : Nat × String} (h : keyLt p q = false) : keyLeP q p := by
  unfold keyLt at h
  simp only [Bool.or_eq_false_iff, Bool.and_eq_false_iff, decide_eq_false_iff_not] at h
  obtain ⟨h1, h2⟩ := h
  rcases Nat.lt_or_ge q.1 p.1 with hlt | hge
  · exact Or.inl hlt
  · have he : q.1 = p.1 := Nat.le_antisymm (Nat.not_lt.mp h1) hge
    rcases h2 with h2 | h2
    · exact absurd he.symm h2
    · rcases lexLtB_total h2 with h3 | h3
      · exact Or.inr ⟨he, Or.inl h3⟩
      · exact Or.inr ⟨he, Or.inr h3.symm⟩

theorem keyLeP_trans {p q r : Nat × String} (h1 : keyLeP p q) (h2 : keyLeP q r) :
    keyLeP p r := by
  rcases h1 with h1 | ⟨h1e, h1l⟩
  · rcases h2 with h2 | ⟨h2e, h2l⟩
    · exact Or.inl (Nat.lt_trans h1 h2)
    · exact Or.inl (h2e ▸ h1)
  · rcases h2 with h2 | ⟨h2e, h2l⟩
    · exact Or.inl (h1e ▸ h2)
    · refine Or.inr ⟨h1e.trans h2e, ?_⟩
      rcases h1l with h1l | h1l
      · rcases h2l with h2l | h2l
        · exact Or.inl (lexLtB_trans h1l h2l)
        · exact Or.inl (h2l ▸ h1l)
      · rcases h2l with h2l | h2l
        · exact Or.inl (h1l ▸ h2l)
        · exact Or.inr (h1l.trans h2l)

theorem minByKeyAux_spec (key : HfFile → Nat × String) (xs : List HfFile) :
    ∀ cur : HfFile,
      (minByKeyAux key cur xs = cur ∨ minByKeyAux key cur xs ∈ xs) ∧
      keyLeP (key (minByKeyAux key cur xs)) (key cur) ∧
      ∀ x ∈ xs, keyLeP (key (minByKeyAux key cur xs)) (key x) := by
  induction xs with
  | nil =>
    intro cur
    exact ⟨Or.inl rfl, keyLeP_refl _, by simp⟩
  | cons x xs ih =>
    intro cur
    simp only [minByKeyAux]
    by_cases hk : keyLt (key x) (key cur) = true
    · rw [if_pos hk]
      obtain ⟨hmem, hle, hall⟩ := ih x
      refine ⟨?_, ?_, ?_⟩
      · rcases hmem with h | h
        · exact Or.inr (by rw [h]; exact List.mem_cons_self x xs)
        · exact Or.inr (List.mem_cons_of_mem x h)
      · exact keyLeP_trans hle (keyLt_to_leP hk)
      · intro y hy
        rcases List.mem_cons.mp hy with rfl | hy
        · exact hle
        · exact hall y hy
    · rw [if_neg hk]
      obtain ⟨hmem, hle, hall⟩ := ih cur
      refine ⟨?_, hle, ?_⟩
      · rcases hmem with h | h
        · exact Or.inl h
        · exact Or.inr (List.mem_cons_of_mem x h)
      · intro y hy
        rcases List.mem_cons.mp hy with rfl | hy
        · exact keyLeP_trans hle (keyLt_false_to_leP (Bool.eq_false_iff.mpr hk))
        · exact hall y hy

theorem minByKey_spec (key : HfFile → Nat × String) (l : List HfFile) (f : HfFile)
    (h : minByKey key l = some f) : f ∈ l ∧ ∀ g ∈ l, keyLeP (key f) (key g) := by
  cases l with
  | nil => simp [minByKey] at h
  | cons x xs =>
    simp only [minByKey, Option.some.injEq] at h
    obtain ⟨hmem, hle, hall⟩ := minByKeyAux_spec key xs x
    rw [h] at hmem hle hall
    refine ⟨?_, ?_⟩
    · rcases hmem with hm | hm
      · rw [hm]; exact List.mem_cons_self x xs
      · exact List.mem_cons_of_mem x hm
    · intro g hg
      rcases List.mem_cons.mp hg with rfl | hg
      · exact hle
      · exact hall g hg

theorem minByKey_eq_none (key : HfFile → Nat × String) (l : List HfFile) :
    minByKey key l = none ↔ l = [] := by
  cases l <;> simp [minByKey]

/-- C6: when the user input is neither an existing path nor an existing file
under the model directory, `resolve_or_download_model` either fails with
`ModelNotFound` (no catalog entry's lowercased name contains the lowercased
input) or proceeds to the download step with a catalog entry that is minimal
under the key (preference penalty, lowercased name) among all matches; and
the two concrete `large-v3` resolutions of the claim hold. -/
theorem resolver_alias_selection :
    (∀ (env : List String) (downloadOk : Bool) (user_input models_dir : String)
        (files : List HfFile) (prefer_quantized : Bool),
      env.contains user_input = false →
      env.contains (joinPath models_dir user_input) = false →
      (aliasMatches files user_input = [] ∧
        resolve_or_download_model env downloadOk user_input models_dir files
          prefer_quantized = ⟨Except.error RErr.notFound, env, false⟩) ∨
      (∃ f, f ∈ aliasMatches files user_input ∧
        (∀ g ∈ aliasMatches files user_input,
          keyLeP (resolveKey prefer_quantized f) (resolveKey prefer_quantized g)) ∧
        resolve_or_download_model env downloadOk user_input models_dir files
          prefer_quantized =
          download_model_if_missing env downloadOk f.rfilename models_dir)) ∧
    (resolve_or_download_model [] true "large-v3" "M" resolverDemoCatalog false).result =
      Except.ok "M/ggml-large-v3.bin" ∧
    (resolve_or_download_model [] true "large-v3" "M" resolverDemoCatalog true).result =
      Except.ok "M/ggml-large-v3-q5.bin" := by
  refine ⟨?_, by decide, by decide⟩
  intro env downloadOk user_input models_dir files prefer_quantized h1 h2
  cases hbm : bestMatch files prefer_quantized user_input with
  | none =>
    left
    have hempty : aliasMatches files user_input = [] := by
      unfold bestMatch at hbm
      rcases Option.map_eq_none'.mp hbm with hn
      exact (minByKey_eq_none _ _).mp hn
    refine ⟨hempty, ?_⟩
    unfold resolve_or_download_model
    rw [if_neg (by rw [h1]; simp), if_neg (by rw [h2]; simp), hbm]
  | some name =>
    right
    unfold bestMatch at hbm
    obtain ⟨f, hf, hname⟩ := Option.map_eq_some'.mp hbm
    obtain ⟨hmem, hmin⟩ := minByKey_spec (resolveKey prefer_quantized) _ f hf
    refine ⟨f, hmem, hmin, ?_⟩
    unfold resolve_or_download_model
    rw [if_neg (by rw [h1]; simp), if_neg (by rw [h2]; simp)]
    unfold bestMatch
    rw [hf]
    simp only [Option.map_some']

/-- C6 witness: the selection statement instantiated at the two-entry
catalog with the alias `large-v3` and `prefer_quantized = false`. -/
theorem resolver_alias_selection_witness :
    ([] : List String).contains "large-v3" = false ∧
    ([] : List String).contains (joinPath "M" "large-v3") = false ∧
    ((aliasMatches resolverDemoCatalog "large-v3" = [] ∧
        resolve_or_download_model [] true "large-v3" "M" resolverDemoCatalog false =
          ⟨Except.error RErr.notFound, [], false⟩) ∨
      (∃ f, f ∈ aliasMatches resolverDemoCatalog "large-v3" ∧
        (∀ g ∈ aliasMatches resolverDemoCatalog "large-v3",
          keyLeP (resolveKey false f) (resolveKey false g)) ∧
        resolve_or_download_model [] true "large-v3" "M" resolverDemoCatalog false =
          download_model_if_missing [] true f.rfilename "M")) :=
  ⟨rfl, rfl,
    resolver_alias_selection.1 [] true "large-v3" "M" resolverDemoCatalog false rfl rfl⟩

/-! ## C7: idempotence of the download step and of alias resolution -/

/-- C7: `download_model_if_missing` returns an existing destination without
any download attempt; and after any successful resolution, running the same
resolution again on the resulting filesystem returns the same path, changes
nothing, and attempts no download. -/
theorem resolver_idempotent :
    (∀ (env : List String) (downloadOk : Bool) (filename models_dir : String),
      env.contains (joinPath models_dir filename) = true →
      download_model_if_missing env downloadOk filename models_dir =
        ⟨Except.ok (joinPath models_dir filename), env, false⟩) ∧
    (∀ (env : List String) (downloadOk downloadOk2 : Bool)
        (user_input models_dir : String) (files : List HfFile)
        (prefer_quantized : Bool) (p : String),
      (resolve_or_download_model env downloadOk user_input models_dir files
        prefer_quantized).result = Except.ok p →
      resolve_or_download_model
          (resolve_or_download_model env downloadOk user_input models_dir files
            prefer_quantized).fs
          downloadOk2 user_input models_dir files prefer_quantized =
        ⟨Except.ok p,
          (resolve_or_download_model env downloadOk user_input models_dir files
            prefer_quantized).fs, false⟩) := by
  constructor
  · intro env downloadOk filename models_dir h
    unfold download_model_if_missing
    rw [if_pos h]
  · intro env dOk dOk2 input dir files prefer p hres
    by_cases h1 : env.contains input = true
    · simp only [resolve_or_download_model, if_pos h1] at hres ⊢
      obtain rfl : input = p := by simpa using hres
      rfl
    · have h1f : env.contains input = false := Bool.eq_false_iff.mpr h1
      by_cases h2 : env.contains (joinPath dir input) = true
      · simp only [resolve_or_download_model, if_neg h1, if_pos h2] at hres ⊢
        obtain rfl : joinPath dir input = p := by simpa using hres
        rfl
      · have h2f : env.contains (joinPath dir input) = false := Bool.eq_false_iff.mpr h2
        cases hbm : bestMatch files prefer input with
        | none =>
          have h1m : input ∉ env := by simpa using h1
          have h2m : joinPath dir input ∉ env := by simpa using h2
          simp [resolve_or_download_model, hbm, h1m, h2m] at hres
        | some name =>
          by_cases h3 : env.contains (joinPath dir name) = true
          · simp only [resolve_or_download_model, if_neg h1, if_neg h2, hbm,
              download_model_if_missing, if_pos h3] at hres ⊢
            obtain rfl : joinPath dir name = p := by simpa using hres
            rfl
          · have h3f : env.contains (joinPath dir name) = false := Bool.eq_false_iff.mpr h3
            cases hdOk : dOk with
            | false =>
              have h1m : input ∉ env := by simpa using h1
              have h2m : joinPath dir input ∉ env := by simpa using h2
              have h3m : joinPath dir name ∉ env := by simpa using h3
              simp [resolve_or_download_model, download_model_if_missing, hbm,
                h1m, h2m, h3m, hdOk] at hres
            | true =>
              simp only [resolve_or_download_model, download_model_if_missing,
                if_neg h1, if_neg h2, hbm, if_neg h3, hdOk, if_true] at hres ⊢
              obtain rfl : joinPath dir name = p := by simpa using hres
              by_cases hA : (joinPath dir name :: env).contains input = true
              · have hin : input = joinPath dir name := by
                  rw [List.contains_cons, h1f] at hA
                  simpa using hA
                simp only [resolve_or_download_model, if_pos hA]
                rw [hin]
              · by_cases hB :
                  (joinPath dir name :: env).contains (joinPath dir input) = true
                · have hjn : joinPath dir input = joinPath dir name := by
                    rw [List.contains_cons, h2f] at hB
                    simpa using hB
                  simp only [resolve_or_download_model, if_neg hA, if_pos hB]
                  rw [hjn]
                · have hC : (joinPath dir name :: env).contains (joinPath dir name)
                      = true := by
                    rw [List.contains_cons]
                    simp
                  simp only [resolve_or_download_model, if_neg hA, if_neg hB, hbm,
                    download_model_if_missing, if_pos hC]

/-- C7 witness: resolving `large-v3` against an empty filesystem downloads
`M/ggml-large-v3.bin`; resolving again on the resulting filesystem returns
the same path with no download and no filesystem change. -/
theorem resolver_idempotent_witness :
    (resolve_or_download_model [] true "large-v3" "M" resolverDemoCatalog false).result =
      Except.ok "M/ggml-large-v3.bin" ∧
    resolve_or_download_model
        (resolve_or_download_model [] true "large-v3" "M" resolverDemoCatalog false).fs
        true "large-v3" "M" resolverDemoCatalog false =
      ⟨Except.ok "M/ggml-large-v3.bin",
        (resolve_or_download_model [] true "large-v3" "M" resolverDemoCatalog false).fs,
        false⟩ :=
  ⟨by decide,
    resolver_idempotent.2 [] true true "large-v3" "M" resolverDemoCatalog false
      "M/ggml-large-v3.bin" (by decide)⟩

/-! ## C8: extension inference (claim corrected on hidden files) -/

theorem findSome?_eq_some_iff {α β : Type} (f : α → Option β) (l : List α) (b : β) :
    l.findSome? f = some b ↔
      ∃ l₁ a l₂, l = l₁ ++ a :: l₂ ∧ (∀ x ∈ l₁, f x = none) ∧ f a = some b := by
  induction l with
  | nil =>
    simp only [List.findSome?_nil, false_iff, reduceCtorEq]
    rintro ⟨l₁, a, l₂, h, -, -⟩
    cases l₁ <;> simp at h
  | cons x xs ih =>
    rw [List.findSome?_cons]
    cases hx : f x with
    | some v =>
      constructor
      · intro h
        refine ⟨[], x, xs, rfl, by simp, ?_⟩
        rw [hx]
        exact h
      · rintro ⟨l₁, a, l₂, hl, hnone, ha⟩
        cases l₁ with
        | nil =>
          rw [List.nil_append] at hl
          injection hl with hl1 hl2
          rw [← hl1] at ha
          rw [hx] at ha
          exact ha
        | cons y ys =>
          rw [List.cons_append] at hl
          injection hl with hl1 hl2
          have := hnone y (List.mem_cons_self y ys)
          rw [← hl1, hx] at this
          exact absurd this (by simp)
    | none =>
      rw [ih]
      constructor
      · rintro ⟨l₁, a, l₂, hl, hnone, ha⟩
        refine ⟨x :: l₁, a, l₂, by rw [List.cons_append, hl], ?_, ha⟩
        intro y hy
        rcases List.mem_cons.mp hy with rfl | hy
        · exact hx
        · exact hnone y hy
      · rintro ⟨l₁, a, l₂, hl, hnone, ha⟩
        cases l₁ with
        | nil =>
          rw [List.nil_append] at hl
          injection hl with hl1 hl2
          rw [← hl1, hx] at ha
          exact absurd ha (by simp)
        | cons y ys =>
          rw [List.cons_append] at hl
          injection hl with hl1 hl2
          exact ⟨ys, a, l₂, hl2, fun z hz => hnone z (List.mem_cons_of_mem y hz), ha⟩

theorem afterLastDot_isSome (l : List Char) :
    (afterLastDot l).isSome = l.contains '.' := by
  induction l with
  | nil => rfl
  | cons c cs ih =>
    rw [List.contains_cons]
    simp only [afterLastDot]
    cases h : afterLastDot cs with
    | some r =>
      rw [h] at ih
      simp only [Option.isSome_some] at ih
      have hmem : '.' ∈ cs := (contains_iff_mem cs '.').mp ih.symm
      simp [hmem]
    | none =>
      rw [h] at ih
      simp only [Option.isSome_none] at ih
      have hnm : '.' ∉ cs := (contains_eq_false_iff cs '.').mp ih.symm
      by_cases hc : c = '.'
      · simp [hc]
      · have hbc : ¬ ('.' = c) := fun he => hc he.symm
        simp [hc, hbc, hnm]

theorem rustExtension_isSome (s : String) :
    (rustExtension s).isSome = (s.data.drop 1).contains '.' := by
  unfold rustExtension
  cases h : s.data with
  | nil => simp
  | cons c cs => simp [afterLastDot_isSome]

/-- C8 counterexample: the final segment `.bashrc` of `/tmp/.bashrc`
contains a dot, so the claim demands that inference return none; but Rust
`Path::extension` treats a leading dot as no extension, so the code probes
and returns `/tmp/.bashrc.mp4`. -/
theorem infer_ext_hidden_file_cex :
    fileName "/tmp/.bashrc" = some ".bashrc" ∧
    ".bashrc".data.contains '.' = true ∧
    try_infer_with_exts ⟨["/tmp/.bashrc.mp4"], ""⟩ "/tmp/.bashrc" =
      some "/tmp/.bashrc.mp4" := by
  decide

/-- C8 amended: an existing candidate is returned unchanged; a missing
candidate whose final segment has a dot after its first character (an
apparent extension in the Rust `Path::extension` sense) yields none; and a
missing candidate whose final segment has no such dot is resolved by
probing `parent/stem.ext` over the fixed extension list in order, returning
the first existing probe and none when no probe exists. -/
theorem infer_ext_characterization :
    (∀ (env : FsEnv) (candidate : String),
      pathExists env candidate = true →
      try_infer_with_exts env candidate = some candidate) ∧
    (∀ (env : FsEnv) (candidate stem : String),
      pathExists env candidate = false →
      fileName candidate = some stem →
      (stem.data.drop 1).contains '.' = true →
      try_infer_with_exts env candidate = none) ∧
    (∀ (env : FsEnv) (candidate stem : String),
      pathExists env candidate = false →
      fileName candidate = some stem →
      (stem.data.drop 1).contains '.' = false →
      ((∀ p, try_infer_with_exts env candidate = some p ↔
          ∃ l₁ e l₂, mediaExts = l₁ ++ e :: l₂ ∧
            (∀ e2 ∈ l₁, pathExists env (probePath env candidate stem e2) = false) ∧
            p = probePath env candidate stem e ∧ pathExists env p = true) ∧
        (try_infer_with_exts env candidate = none ↔
          ∀ e ∈ mediaExts, pathExists env (probePath env candidate stem e) = false))) := by
  refine ⟨?_, ?_, ?_⟩
  · intro env candidate h
    unfold try_infer_with_exts
    rw [if_pos h]
  · intro env candidate stem hex hfn hdot
    have hsome : (rustExtension stem).isSome = true := by
      rw [rustExtension_isSome, hdot]
    unfold try_infer_with_exts
    rw [if_neg (by rw [hex]; simp)]
    simp [hfn, hsome]
  · intro env candidate stem hex hfn hdot
    have hsome : (rustExtension stem).isSome = false := by
      rw [rustExtension_isSome, hdot]
    have hpe : (pathExtensionOf candidate).isSome = false := by
      unfold pathExtensionOf
      rw [hfn, Option.some_bind, hsome]
    have hform : try_infer_with_exts env candidate =
        mediaExts.findSome? (fun ext =>
          if pathExists env (probePath env candidate stem ext) = true
          then some (probePath env candidate stem ext) else none) := by
      unfold try_infer_with_exts
      rw [if_neg (by rw [hex]; simp)]
      simp only [hfn]
      rw [if_neg (by rw [hsome, hpe]; simp)]
      rfl
    have hf_none : ∀ e, ((fun ext =>
        if pathExists env (probePath env candidate stem ext) = true
        then some (probePath env candidate stem ext) else none) e = none) ↔
        pathExists env (probePath env candidate stem e) = false := by
      intro e
      by_cases h : pathExists env (probePath env candidate stem e) = true
      · simp [h]
      · simp only [if_neg h, true_iff]
        exact Bool.eq_false_iff.mpr h
    constructor
    · intro p
      rw [hform, findSome?_eq_some_iff]
      constructor
      · rintro ⟨l₁, e, l₂, hsplit, hnone, ha⟩
        by_cases h : pathExists env (probePath env candidate stem e) = true
        · rw [if_pos h] at ha
          injection ha with ha
          refine ⟨l₁, e, l₂, hsplit, ?_, ha.symm, ha ▸ h⟩
          intro e2 he2
          exact (hf_none e2).mp (hnone e2 he2)
        · rw [if_neg h] at ha
          exact absurd ha (by simp)
      · rintro ⟨l₁, e, l₂, hsplit, hnone, hp, hpe2⟩
        refine ⟨l₁, e, l₂, hsplit, ?_, ?_⟩
        · intro e2 he2
          exact (hf_none e2).mpr (hnone e2 he2)
        · rw [if_pos (by rw [← hp]; exact hpe2), hp]
    · rw [hform, List.findSome?_eq_none_iff]
      constructor
      · intro h e he
        exact (hf_none e).mp (h e he)
      · intro h e he
        exact (hf_none e).mpr (h e he)

/-- C8 witness: a missing candidate whose final segment has an apparent
extension is refused. -/
theorem infer_ext_witness :
    pathExists ⟨[], ""⟩ "/d/notes.txt" = false ∧
    fileName "/d/notes.txt" = some "notes.txt" ∧
    ("notes.txt".data.drop 1).contains '.' = true ∧
    try_infer_with_exts ⟨[], ""⟩ "/d/notes.txt" = none :=
  ⟨rfl, by decide, by decide,
    infer_ext_characterization.2.1 ⟨[], ""⟩ "/d/notes.txt" "notes.txt"
      rfl (by decide) (by decide)⟩

end Vid2Txt
